import Mathlib

/-!
Verification of the action dependency resolver and scheduler of
`dotfile.py` (functions `visit_dependency`, `get_execution_order`,
`parse_actions`, `get_install_functions`).

The Python code is embedded shallowly:

* Python `dict`s (the action registry and the priority table) are
  association lists that preserve insertion order, exactly as Python
  dicts do; an update of an existing key rewrites the value in place,
  a new key is appended at the end.
* Python exceptions (`KeyError` from `priorities[k] -= 1` or
  `priorities.pop(k)` on a missing key, `IndexError` from
  `list.pop()` on an empty list, `StopIteration` from `next` on an
  empty iterator) are explicit error values of an `Except` monad.
* `visit_dependency` is recursive and, on cyclic recipes, does not
  terminate; it is therefore embedded with an explicit fuel
  parameter, `PyErr.fuel` marking a computation that did not finish
  within the given recursion budget.  All other behaviour is
  independent of the fuel as long as the fuel is large enough.
* the global `logger` calls that name actions and dependencies in the
  missing-dependency branches are modelled by an explicit log that is
  threaded through the state (only the two diagnostics of
  `visit_dependency` are recorded; purely informational messages
  elsewhere carry no claim content).
* `sorted(..., key=lambda item: item[1], reverse=True)` is Python's
  stable descending sort by value; it is embedded as a stable
  insertion sort `sortDesc`.
-/

namespace Dotfile

/-- Action identifiers: Python uses plain strings (recipe ids or nanoid). -/
abbrev Ident := String

/-- A dependency reference field of an action descriptor: the YAML key can
be absent, hold a single id (`str`), or hold a list of ids (`list`). -/
inductive Dep where
  | nil : Dep
  | one : Ident → Dep
  | many : List Ident → Dep
deriving DecidableEq, Repr

/-- The zero-argument operation of an action, opaque to the resolver.  Each
constructor records the data captured by the corresponding closure built in
`parse_actions` / `get_install_functions`. -/
inductive Op where
  | create : String → Op
  | shell : String → Op
  | link : String → String → Op
  | pkg : String → Op
deriving DecidableEq, Repr

/-- An action descriptor: the dict built by `parse_actions`, with keys
`only_if` (soft dependency), `must_have` (hard dependency), `function`. -/
structure Action where
  only_if : Dep
  must_have : Dep
  op : Op
deriving DecidableEq, Repr

/-- The registry `actions`: insertion-ordered map from id to descriptor. -/
abbrev Registry := List (Ident × Action)

/-- The `priorities` dict: insertion-ordered map from id to integer. -/
abbrev PTable := List (Ident × Int)

/-- Diagnostics produced by `visit_dependency` when a list-form dependency
entry is absent from the registry.  Note that the Python message formats
`opt_dep_id`, i.e. the whole dependency list, not the missing entry. -/
inductive LogMsg where
  | softMiss : Ident → List Ident → LogMsg
  | hardMiss : Ident → List Ident → LogMsg
deriving DecidableEq, Repr

/-- Python runtime failures of the embedded code, plus fuel exhaustion. -/
inductive PyErr where
  | keyError : PyErr
  | indexError : PyErr
  | stopIteration : PyErr
  | fuel : PyErr
deriving DecidableEq, Repr

/-- The mutable state threaded through `visit_dependency`: the registry
`actions`, the `priorities` dict, the `dependency_path` list and the log.
Python passes all of these by reference, so the embedding returns them. -/
structure St where
  acts : Registry
  prio : PTable
  path : List Ident
  log : List LogMsg
deriving DecidableEq, Repr

/-- `priorities[k] += n` (and `-= `): look the key up and rewrite its value
in place; `none` models the `KeyError` raised on a missing key. -/
def bumpP (k : Ident) (n : Int) : PTable → Option PTable
  | [] => none
  | (a, v) :: t =>
    if a = k then some ((a, v + n) :: t)
    else
      match bumpP k n t with
      | none => none
      | some t' => some ((a, v) :: t')

/-- `priorities.pop(k)`: remove the entry of `k`; `none` models the
`KeyError` raised on a missing key. -/
def popP (k : Ident) : PTable → Option PTable
  | [] => none
  | (a, v) :: t =>
    if a = k then some t
    else
      match popP k t with
      | none => none
      | some t' => some ((a, v) :: t')

/-- `if x not in dependency_path: dependency_path.append(x)`. -/
def pushPath (k : Ident) (p : List Ident) : List Ident :=
  if k ∈ p then p else p ++ [k]

/-- The three priority updates performed for one processed dependency edge
(source lines 523-526, 538-540, 563-565, 577-579): the chain's original
root and the visiting action each lose 1, the dependency gains `amt`
(1 for a soft edge, 10 for a hard edge). -/
def edgeOp (origin id dep : Ident) (amt : Int) (st : St) : Except PyErr St :=
  match bumpP origin (-1) st.prio with
  | none => .error .keyError
  | some p1 =>
    match bumpP id (-1) p1 with
    | none => .error .keyError
    | some p2 =>
      match bumpP dep amt p2 with
      | none => .error .keyError
      | some p3 => .ok { st with prio := p3 }

/-- The `for dependency in opt_dep_id` loop of `visit_dependency` over a
list-form dependency field.  `rec` is the recursive visit at the next
depth.  `hard` selects the `must_have` variant (delta 10, log then
`priorities.pop` then continue) over the `only_if` variant (delta 1, log
then `priorities.pop` then `break`).  `ds0` is the full list, which is
what the Python diagnostics interpolate. -/
def visitListF (rec : Ident → Action → St → Except PyErr St) (hard : Bool)
    (id origin : Ident) (ds0 : List Ident) :
    List Ident → St → Except PyErr St
  | [], st => .ok st
  | d :: rest, st =>
    match List.lookup d st.acts with
    | some ddet =>
      match edgeOp origin id d (if hard then 10 else 1) st with
      | .error e => .error e
      | .ok st' =>
        match rec d ddet st' with
        | .error e => .error e
        | .ok st'' => visitListF rec hard id origin ds0 rest st''
    | none =>
      let st' : St :=
        { st with log := st.log ++
            [if hard then LogMsg.hardMiss id ds0 else LogMsg.softMiss id ds0] }
      match popP id st'.prio with
      | none => .error .keyError
      | some p =>
        cond hard (visitListF rec hard id origin ds0 rest { st' with prio := p })
          (.ok { st' with prio := p })

/-- The single-id branch of a dependency block: conditionally push the
dependency onto the path, and if it exists in the registry, apply the
three priority updates and recurse into it; an absent single dependency
is silently skipped (its id stays on the path). -/
def singleDep (rec : Ident → Action → St → Except PyErr St) (amt : Int)
    (id origin d : Ident) (st : St) : Except PyErr St :=
  let stp : St := { st with path := pushPath d st.path }
  match List.lookup d stp.acts with
  | some ddet =>
    match edgeOp origin id d amt stp with
    | .error e => .error e
    | .ok st' => rec d ddet st'
  | none => .ok stp

/-- One dependency block of `visit_dependency`: the `only_if` block
(`hard = false`, delta 1) or the `must_have` block (`hard = true`,
delta 10), dispatching on the shape of the field. -/
def depBlock (rec : Ident → Action → St → Except PyErr St) (hard : Bool)
    (id origin : Ident) (dep : Dep) (st : St) : Except PyErr St :=
  match dep with
  | .nil => .ok st
  | .one d => singleDep rec (if hard then 10 else 1) id origin d st
  | .many ds => visitListF rec hard id origin ds ds st

/-- Shallow embedding of `visit_dependency` (dotfile.py lines 507-595).
`fuel` bounds the recursion depth; every recursive call runs with one unit
less.  The steps are translated in source order: conditional push of the
visited id, `original_id = next(islice(dependency_path, 1))`, the
`only_if` block (single id or list, delta 1), the `must_have` block
(single id or list, delta 10), and the final `dependency_path.pop()`.
Python exceptions propagate, aborting the enclosing computation. -/
def visit : Nat → Ident → Action → St → Except PyErr St
  | 0, _, _, _ => .error .fuel
  | n + 1, id, det, st0 =>
    let st1 : St := { st0 with path := pushPath id st0.path }
    match st1.path.head? with
    | none => .error .stopIteration
    | some origin =>
      match depBlock (fun d det st => visit n d det st) false
          id origin det.only_if st1 with
      | .error e => .error e
      | .ok st2 =>
        match depBlock (fun d det st => visit n d det st) true
            id origin det.must_have st2 with
        | .error e => .error e
        | .ok st3 =>
          if st3.path = [] then .error .indexError
          else .ok { st3 with path := st3.path.dropLast }

/-- The loop of `get_execution_order` (lines 603-610): one root visit per
registry entry, each with a fresh empty `dependency_path`. -/
def rootLoop (fuel : Nat) : List (Ident × Action) → St → Except PyErr St
  | [], st => .ok st
  | (id, act) :: rest, st =>
    match visit fuel id act { st with path := [] } with
    | .error e => .error e
    | .ok st' => rootLoop fuel rest st'

/-- `priorities = {action_id: 0 for action_id in actions}` (line 601). -/
def initPrio (r : Registry) : PTable := r.map (fun kv => (kv.1, 0))

/-- Resolution: build the zeroed priority table and run every root visit,
returning the final state (priority table, registry, log). -/
def resolveSt (fuel : Nat) (r : Registry) : Except PyErr St :=
  rootLoop fuel r { acts := r, prio := initPrio r, path := [], log := [] }

/-- Stable insert for the descending-by-value sort: the inserted pair came
earlier in the original list than everything already sorted, so it goes in
front of entries of equal value. -/
def insDesc (x : Ident × Int) : List (Ident × Int) → List (Ident × Int)
  | [] => [x]
  | y :: ys => if x.2 < y.2 then y :: insDesc x ys else x :: y :: ys

/-- `sorted(priorities.items(), key=lambda item: item[1], reverse=True)`:
Python's stable sort, descending by value, ties in original order. -/
def sortDesc (l : List (Ident × Int)) : List (Ident × Int) :=
  l.foldr insDesc []

/-- `get_execution_order` (lines 598-612): resolve, then list the ids by
descending priority. -/
def getExecutionOrder (fuel : Nat) (r : Registry) :
    Except PyErr (List Ident) :=
  (resolveSt fuel r).map (fun st => (sortDesc st.prio).map Prod.fst)

/-- The priority table alone, after resolution. -/
def resolvePrio (fuel : Nat) (r : Registry) : Except PyErr PTable :=
  (resolveSt fuel r).map St.prio

/-! ### Properties of the stable descending sort -/

theorem insDesc_perm (x : Ident × Int) (l : List (Ident × Int)) :
    (insDesc x l).Perm (x :: l) := by
  induction l with
  | nil => simp [insDesc]
  | cons y ys ih =>
    by_cases h : x.2 < y.2
    · simp only [insDesc, if_pos h]
      exact (ih.cons y).trans (List.Perm.swap x y ys)
    · simp [insDesc, if_neg h]

theorem sortDesc_perm (l : List (Ident × Int)) : (sortDesc l).Perm l := by
  induction l with
  | nil => simp [sortDesc]
  | cons y ys ih =>
    simpa [sortDesc] using (insDesc_perm y (sortDesc ys)).trans (ih.cons y)

theorem insDesc_pairwise {l : List (Ident × Int)} (x : Ident × Int)
    (h : l.Pairwise (fun p q => q.2 ≤ p.2)) :
    (insDesc x l).Pairwise (fun p q => q.2 ≤ p.2) := by
  induction l with
  | nil => simp [insDesc]
  | cons y ys ih =>
    rcases List.pairwise_cons.mp h with ⟨hy, hys⟩
    by_cases hc : x.2 < y.2
    · simp only [insDesc, if_pos hc]
      refine List.pairwise_cons.mpr ⟨?_, ih hys⟩
      intro z hz
      rcases List.mem_cons.mp ((insDesc_perm x ys).mem_iff.mp hz) with hz | hz
      · subst hz; exact le_of_lt hc
      · exact hy z hz
    · simp only [insDesc, if_neg hc]
      refine List.pairwise_cons.mpr ⟨?_, h⟩
      intro z hz
      rcases List.mem_cons.mp hz with hz | hz
      · subst hz; exact le_of_not_lt hc
      · exact le_trans (hy z hz) (le_of_not_lt hc)

theorem sortDesc_pairwise (l : List (Ident × Int)) :
    (sortDesc l).Pairwise (fun p q => q.2 ≤ p.2) := by
  induction l with
  | nil => simp [sortDesc]
  | cons y ys ih => exact insDesc_pairwise y ih

/-- In a list sorted descending by value, an entry with a strictly larger
value occurs strictly before one with a smaller value. -/
theorem sorted_before {l : List (Ident × Int)}
    (h : l.Pairwise (fun p q => q.2 ≤ p.2)) {b a : Ident} {vb va : Int}
    (hb : (b, vb) ∈ l) (ha : (a, va) ∈ l) (hlt : va < vb) :
    [b, a].Sublist (l.map Prod.fst) := by
  induction l with
  | nil => cases hb
  | cons y ys ih =>
    rcases List.pairwise_cons.mp h with ⟨hy, hys⟩
    rcases List.mem_cons.mp hb with hb1 | hb2
    · have ha2 : (a, va) ∈ ys := by
        rcases List.mem_cons.mp ha with ha1 | ha2
        · exfalso
          have h2 : (a, va) = (b, vb) := ha1.trans hb1.symm
          have : va = vb := congrArg Prod.snd h2
          omega
        · exact ha2
      have hfst : y.1 = b := by rw [← hb1]
      have hmem : a ∈ ys.map Prod.fst :=
        List.mem_map.mpr ⟨(a, va), ha2, rfl⟩
      simpa [hfst] using
        (List.singleton_sublist.mpr hmem).cons₂ b
    · rcases List.mem_cons.mp ha with ha1 | ha2
      · exfalso
        have h1 : vb ≤ va := by
          have := hy (b, vb) hb2
          rw [← ha1] at this
          exact this
        omega
      · exact (ih hys hb2 ha2).cons y.1

theorem insDesc_of_const {l : List (Ident × Int)} {c : Int}
    (hl : ∀ x ∈ l, x.2 = c) {x : Ident × Int} (hx : x.2 = c) :
    insDesc x l = x :: l := by
  cases l with
  | nil => rfl
  | cons y ys =>
    have : ¬ x.2 < y.2 := by
      have := hl y (by simp)
      omega
    simp [insDesc, this]

/-- A table whose values are all equal is left unchanged by the stable
sort: ties keep their original order. -/
theorem sortDesc_of_const {l : List (Ident × Int)} {c : Int}
    (hl : ∀ x ∈ l, x.2 = c) : sortDesc l = l := by
  induction l with
  | nil => rfl
  | cons y ys ih =>
    have hys : ∀ x ∈ ys, x.2 = c := fun x hx => hl x (by simp [hx])
    have : sortDesc (y :: ys) = insDesc y (sortDesc ys) := rfl
    rw [this, ih hys, insDesc_of_const hys (hl y (by simp))]

/-! ### Properties of the association-list operations -/

theorem lookup_mem {α : Type} {l : List (Ident × α)} {k : Ident} {v : α}
    (h : List.lookup k l = some v) : (k, v) ∈ l := by
  induction l with
  | nil => simp [List.lookup] at h
  | cons y ys ih =>
    obtain ⟨a, w⟩ := y
    rw [List.lookup_cons] at h
    by_cases hk : k = a
    · simp [hk] at h
      subst hk
      subst h
      exact List.mem_cons_self _ _
    · have hb : (k == a) = false := by simpa using hk
      rw [hb] at h
      exact List.mem_cons_of_mem _ (ih h)

theorem lookup_eq_none {α : Type} {l : List (Ident × α)} {k : Ident}
    (h : k ∉ l.map Prod.fst) : List.lookup k l = none := by
  induction l with
  | nil => rfl
  | cons y ys ih =>
    obtain ⟨a, w⟩ := y
    simp only [List.map_cons, List.mem_cons] at h
    push_neg at h
    rw [List.lookup_cons]
    have hb : (k == a) = false := by simpa using h.1
    rw [hb]
    exact ih h.2

theorem lookup_isSome {α : Type} {l : List (Ident × α)} {k : Ident}
    (h : k ∈ l.map Prod.fst) : ∃ v, List.lookup k l = some v := by
  induction l with
  | nil => simp at h
  | cons y ys ih =>
    obtain ⟨a, w⟩ := y
    by_cases hk : k = a
    · exact ⟨w, by simp [List.lookup_cons, hk]⟩
    · simp only [List.map_cons, List.mem_cons] at h
      rcases h with h | h
      · exact absurd h hk
      · rcases ih h with ⟨v, hv⟩
        refine ⟨v, ?_⟩
        rw [List.lookup_cons]
        have hb : (k == a) = false := by simpa using hk
        rw [hb, hv]

/-- `List.lookup` on a table whose values are a function of the key. -/
theorem lookup_mapform {α : Type} {l : List (Ident × α)} (f : Ident → Int)
    {k : Ident} (hk : k ∈ l.map Prod.fst) :
    List.lookup k (l.map (fun kv => (kv.1, f kv.1))) = some (f k) := by
  induction l with
  | nil => simp at hk
  | cons y ys ih =>
    obtain ⟨a, w⟩ := y
    by_cases h : k = a
    · subst h
      simp [List.lookup_cons]
    · simp only [List.map_cons, List.mem_cons] at hk
      rcases hk with hk | hk
      · exact absurd hk h
      · simp only [List.map_cons, List.lookup_cons]
        have hb : (k == a) = false := by simpa using h
        rw [hb]
        exact ih hk

theorem bumpP_keys {k : Ident} {n : Int} :
    ∀ {p p' : PTable}, bumpP k n p = some p' →
      p'.map Prod.fst = p.map Prod.fst := by
  intro p
  induction p with
  | nil => intro p' h; simp [bumpP] at h
  | cons y ys ih =>
    intro p' h
    obtain ⟨a, v⟩ := y
    by_cases hk : a = k
    · simp only [bumpP, if_pos hk] at h
      simp only [Option.some.injEq] at h
      subst h
      simp
    · simp only [bumpP, if_neg hk] at h
      cases hb : bumpP k n ys with
      | none => rw [hb] at h; simp at h
      | some t =>
        rw [hb] at h
        simp only [Option.some.injEq] at h
        subst h
        simp [ih hb]

theorem bumpP_isSome {k : Ident} (n : Int) {p : PTable}
    (h : k ∈ p.map Prod.fst) : ∃ p', bumpP k n p = some p' := by
  induction p with
  | nil => simp at h
  | cons y ys ih =>
    obtain ⟨a, v⟩ := y
    by_cases hk : a = k
    · exact ⟨(a, v + n) :: ys, by simp [bumpP, hk]⟩
    · simp only [List.map_cons, List.mem_cons] at h
      rcases h with h | h
      · exact absurd h.symm hk
      · rcases ih h with ⟨t, ht⟩
        exact ⟨(a, v) :: t, by simp [bumpP, hk, ht]⟩

theorem popP_keys {k : Ident} :
    ∀ {p p' : PTable}, popP k p = some p' →
      p'.map Prod.fst = (p.map Prod.fst).erase k := by
  intro p
  induction p with
  | nil => intro p' h; simp [popP] at h
  | cons y ys ih =>
    intro p' h
    obtain ⟨a, v⟩ := y
    by_cases hk : a = k
    · simp only [popP, if_pos hk] at h
      simp only [Option.some.injEq] at h
      subst h
      simp [List.erase_cons, hk]
    · simp only [popP, if_neg hk] at h
      cases hb : popP k ys with
      | none => rw [hb] at h; simp at h
      | some t =>
        rw [hb] at h
        simp only [Option.some.injEq] at h
        subst h
        have hbe : (a == k) = false := by simpa using hk
        simp [List.erase_cons, hbe, ih hb]

theorem popP_mem {k j : Ident} {p p' : PTable} (h : popP k p = some p')
    (hj : j ≠ k) (hmem : j ∈ p.map Prod.fst) : j ∈ p'.map Prod.fst := by
  rw [popP_keys h]
  exact (List.mem_erase_of_ne hj).mpr hmem

theorem popP_isSome {k : Ident} {p : PTable}
    (h : k ∈ p.map Prod.fst) : ∃ p', popP k p = some p' := by
  induction p with
  | nil => simp at h
  | cons y ys ih =>
    obtain ⟨a, v⟩ := y
    by_cases hk : a = k
    · exact ⟨ys, by simp [popP, hk]⟩
    · simp only [List.map_cons, List.mem_cons] at h
      rcases h with h | h
      · exact absurd h.symm hk
      · rcases ih h with ⟨t, ht⟩
        exact ⟨(a, v) :: t, by simp [popP, hk, ht]⟩

/-- `bumpP` on a table whose values are a function of the key, with
duplicate-free keys: the updated table is again of that shape. -/
theorem bumpP_mapform {α : Type} {l : List (Ident × α)} (f : Ident → Int)
    {k : Ident} {n : Int} (hnd : (l.map Prod.fst).Nodup)
    (hk : k ∈ l.map Prod.fst) :
    bumpP k n (l.map (fun kv => (kv.1, f kv.1))) =
      some (l.map (fun kv =>
        (kv.1, if kv.1 = k then f kv.1 + n else f kv.1))) := by
  induction l with
  | nil => simp at hk
  | cons y ys ih =>
    obtain ⟨a, w⟩ := y
    simp only [List.map_cons] at hnd ⊢
    rcases List.nodup_cons.mp hnd with ⟨ha, hnd'⟩
    by_cases h : a = k
    · subst h
      simp only [bumpP, if_pos rfl]
      have hcong : ys.map (fun kv =>
          (kv.1, if kv.1 = a then f kv.1 + n else f kv.1)) =
          ys.map (fun kv => (kv.1, f kv.1)) := by
        apply List.map_congr_left
        intro kv hkv
        have hne : kv.1 ≠ a := fun hc =>
          ha (hc ▸ List.mem_map.mpr ⟨kv, hkv, rfl⟩)
        simp [hne]
      simp [hcong]
    · have hk' : k ∈ ys.map Prod.fst := by
        simp only [List.map_cons, List.mem_cons] at hk
        rcases hk with hk | hk
        · exact absurd hk.symm h
        · exact hk
      simp only [bumpP, if_neg h]
      rw [ih hnd' hk']

/-- `popP` on a table whose values are a function of the key, with
duplicate-free keys: the entry of `k` is removed, the rest is unchanged. -/
theorem popP_mapform {α : Type} {l : List (Ident × α)} (f : Ident → Int)
    {k : Ident} (hnd : (l.map Prod.fst).Nodup) (hk : k ∈ l.map Prod.fst) :
    popP k (l.map (fun kv => (kv.1, f kv.1))) =
      some ((l.filter (fun kv => kv.1 != k)).map
        (fun kv => (kv.1, f kv.1))) := by
  induction l with
  | nil => simp at hk
  | cons y ys ih =>
    obtain ⟨a, w⟩ := y
    simp only [List.map_cons] at hnd
    rcases List.nodup_cons.mp hnd with ⟨ha, hnd'⟩
    by_cases h : a = k
    · subst h
      simp only [List.map_cons, popP, if_pos rfl]
      have hfil : ys.filter (fun kv => kv.1 != a) = ys := by
        apply List.filter_eq_self.mpr
        intro kv hkv
        have hne : kv.1 ≠ a := fun hc =>
          ha (hc ▸ List.mem_map.mpr ⟨kv, hkv, rfl⟩)
        simpa using hne
      simp [hfil]
    · have hk' : k ∈ ys.map Prod.fst := by
        simp only [List.map_cons, List.mem_cons] at hk
        rcases hk with hk | hk
        · exact absurd hk.symm h
        · exact hk
      simp only [List.map_cons, popP, if_neg h]
      rw [ih hnd' hk']
      have hab : (a != k) = true := by simpa using h
      simp [List.filter_cons, hab]

/-! ### Frame properties of the state operations -/

theorem st_path_eta {st : St} (h : st.path = []) :
    ({ st with path := [] } : St) = st := by
  cases st
  simp_all

/-- A successful `edgeOp` changes only priority values: the registry, the
path, the log and even the key list of the priority table are unchanged. -/
theorem edgeOp_ok {o i d : Ident} {amt : Int} {st st' : St}
    (h : edgeOp o i d amt st = .ok st') :
    st'.acts = st.acts ∧ st'.path = st.path ∧ st'.log = st.log ∧
      st'.prio.map Prod.fst = st.prio.map Prod.fst := by
  unfold edgeOp at h
  cases h1 : bumpP o (-1) st.prio with
  | none => simp only [h1] at h; cases h
  | some p1 =>
    simp only [h1] at h
    cases h2 : bumpP i (-1) p1 with
    | none => simp only [h2] at h; cases h
    | some p2 =>
      simp only [h2] at h
      cases h3 : bumpP d amt p2 with
      | none => simp only [h3] at h; cases h
      | some p3 =>
        simp only [h3] at h
        cases h
        refine ⟨rfl, rfl, rfl, ?_⟩
        rw [bumpP_keys h3, bumpP_keys h2, bumpP_keys h1]

theorem visitListF_acts (rec : Ident → Action → St → Except PyErr St)
    (hrec : ∀ d det st st', rec d det st = .ok st' → st'.acts = st.acts)
    {hard : Bool} {id origin : Ident} {ds0 : List Ident} :
    ∀ {ds : List Ident} {st st' : St},
      visitListF rec hard id origin ds0 ds st = .ok st' →
      st'.acts = st.acts := by
  intro ds
  induction ds with
  | nil =>
    intro st st' h
    cases h
    rfl
  | cons d rest ih =>
    intro st st' h
    simp only [visitListF] at h
    cases hl : List.lookup d st.acts with
    | some ddet =>
      simp only [hl] at h
      cases he : edgeOp origin id d (if hard then 10 else 1) st with
      | error e => simp only [he] at h; cases h
      | ok st1 =>
        simp only [he] at h
        cases hr : rec d ddet st1 with
        | error e => simp only [hr] at h; cases h
        | ok st2 =>
          simp only [hr] at h
          have e1 : st'.acts = st2.acts := ih h
          have e2 : st2.acts = st1.acts := hrec d ddet st1 st2 hr
          have e3 := (edgeOp_ok he).1
          rw [e1, e2, e3]
    | none =>
      simp only [hl] at h
      cases hp : popP id st.prio with
      | none => simp only [hp] at h; cases h
      | some p =>
        simp only [hp] at h
        cases hard with
        | true =>
          rw [Bool.cond_true] at h
          have e1 := ih h
          exact e1
        | false =>
          rw [Bool.cond_false] at h
          cases h
          rfl

theorem singleDep_acts (rec : Ident → Action → St → Except PyErr St)
    (hrec : ∀ d det st st', rec d det st = .ok st' → st'.acts = st.acts)
    {amt : Int} {id origin d : Ident} {st st' : St}
    (h : singleDep rec amt id origin d st = .ok st') : st'.acts = st.acts := by
  simp only [singleDep] at h
  cases hl : List.lookup d st.acts with
  | some ddet =>
    simp only [hl] at h
    cases he : edgeOp origin id d amt { st with path := pushPath d st.path } with
    | error e => simp only [he] at h; cases h
    | ok st1 =>
      simp only [he] at h
      have e1 : st'.acts = st1.acts := hrec d ddet st1 st' h
      have e2 := (edgeOp_ok he).1
      rw [e1, e2]
  | none =>
    simp only [hl] at h
    cases h
    rfl

theorem depBlock_acts (rec : Ident → Action → St → Except PyErr St)
    (hrec : ∀ d det st st', rec d det st = .ok st' → st'.acts = st.acts)
    {hard : Bool} {id origin : Ident} {dep : Dep} {st st' : St}
    (h : depBlock rec hard id origin dep st = .ok st') :
    st'.acts = st.acts := by
  cases dep with
  | nil => cases h; rfl
  | one d => exact singleDep_acts rec hrec h
  | many ds => exact visitListF_acts rec hrec h

/-- `visit_dependency` never modifies the registry it walks. -/
theorem visit_acts :
    ∀ {fuel : Nat} {id : Ident} {det : Action} {st st' : St},
      visit fuel id det st = .ok st' → st'.acts = st.acts := by
  intro fuel
  induction fuel with
  | zero => intro id det st st' h; cases h
  | succ n ih =>
    intro id det st st' h
    simp only [visit] at h
    cases hh : (pushPath id st.path).head? with
    | none => simp only [hh] at h; cases h
    | some origin =>
      simp only [hh] at h
      cases h1 : depBlock (fun d det st => visit n d det st) false id origin
          det.only_if { st with path := pushPath id st.path } with
      | error e => simp only [h1] at h; cases h
      | ok st2 =>
        simp only [h1] at h
        cases h2 : depBlock (fun d det st => visit n d det st) true id origin
            det.must_have st2 with
        | error e => simp only [h2] at h; cases h
        | ok st3 =>
          simp only [h2] at h
          by_cases hp : st3.path = []
          · rw [if_pos hp] at h; cases h
          · rw [if_neg hp] at h
            cases h
            have e1 : st3.acts = st2.acts :=
              depBlock_acts (fun d det st => visit n d det st)
                (fun d det st st' hv => ih hv) h2
            have e2 := depBlock_acts (fun d det st => visit n d det st)
              (fun d det st st' hv => ih hv) h1
            simp only [e1]
            rw [e2]

theorem rootLoop_acts {fuel : Nat} :
    ∀ {l : List (Ident × Action)} {st st' : St},
      rootLoop fuel l st = .ok st' → st'.acts = st.acts := by
  intro l
  induction l with
  | nil => intro st st' h; cases h; rfl
  | cons y ys ih =>
    intro st st' h
    obtain ⟨id, act⟩ := y
    simp only [rootLoop] at h
    cases hv : visit fuel id act { st with path := [] } with
    | error e => simp only [hv] at h; cases h
    | ok st1 =>
      simp only [hv] at h
      have e1 : st'.acts = st1.acts := ih h
      have e2 := visit_acts hv
      rw [e1, e2]

/-- Resolution never modifies the registry passed to it. -/
theorem resolveSt_acts {fuel : Nat} {r : Registry} {st : St}
    (h : resolveSt fuel r = .ok st) : st.acts = r :=
  rootLoop_acts h

/-! ### Dependency-free visits are no-ops on every component but the path -/

/-- A visit of an action with no dependency references only pushes and pops
the path: priorities, registry and log are untouched.  Note that the final
`dependency_path.pop()` removes the *last* element, which is the visited id
only if the id was actually pushed. -/
theorem visit_depfree {n : Nat} {id : Ident} {act : Action} {st : St}
    (h1 : act.only_if = .nil) (h2 : act.must_have = .nil) :
    visit (n + 1) id act st =
      .ok { st with path := (pushPath id st.path).dropLast } := by
  simp only [visit, h1, h2, depBlock]
  cases hpp : pushPath id st.path with
  | nil =>
    exfalso
    unfold pushPath at hpp
    by_cases hm : id ∈ st.path
    · rw [if_pos hm] at hpp
      exact List.ne_nil_of_mem hm hpp
    · rw [if_neg hm] at hpp
      simp at hpp
  | cons x xs =>
    simp [hpp]

theorem rootLoop_depfree {fuel : Nat} (hf : 1 ≤ fuel)
    {l : List (Ident × Action)} {st : St}
    (hl : ∀ kv ∈ l, kv.2.only_if = .nil ∧ kv.2.must_have = .nil)
    (hpath : st.path = []) : rootLoop fuel l st = .ok st := by
  induction l with
  | nil => rfl
  | cons y ys ih =>
    obtain ⟨id, act⟩ := y
    obtain ⟨m, rfl⟩ : ∃ m, fuel = m + 1 := ⟨fuel - 1, by omega⟩
    have hd := hl (id, act) (List.mem_cons_self _ _)
    simp only [rootLoop]
    rw [visit_depfree hd.1 hd.2]
    have hpp : pushPath id ([] : List Ident) = [id] := by
      simp [pushPath]
    simp only [hpp]
    simp only [List.dropLast_single]
    rw [st_path_eta hpath]
    exact ih (fun kv hkv => hl kv (List.mem_cons_of_mem _ hkv))

/-- The three updates of a processed hard edge out of a root action `A`
towards `B`: with `original = id = A`, the table loses 1 twice at `A` and
gains `amt` at `B`. -/
theorem edgeOp_mapform {r : Registry} {A B : Ident} (f : Ident → Int)
    {amt : Int} {pth : List Ident} {lg : List LogMsg}
    (hnd : (r.map Prod.fst).Nodup) (hA : A ∈ r.map Prod.fst)
    (hB : B ∈ r.map Prod.fst) (hAB : A ≠ B) :
    edgeOp A A B amt ⟨r, r.map (fun kv => (kv.1, f kv.1)), pth, lg⟩ =
      .ok ⟨r, r.map (fun kv => (kv.1,
        if kv.1 = A then f kv.1 - 2
        else if kv.1 = B then f kv.1 + amt else f kv.1)), pth, lg⟩ := by
  unfold edgeOp
  simp only [bumpP_mapform f hnd hA]
  simp only [bumpP_mapform (fun x => if x = A then f x + (-1) else f x)
    hnd hA]
  simp only [bumpP_mapform (fun x => if x = A then
    (if x = A then f x + (-1) else f x) + (-1)
    else if x = A then f x + (-1) else f x) hnd hB]
  have hcong : r.map (fun kv => (kv.1,
      if kv.1 = B then (if kv.1 = A then
        (if kv.1 = A then f kv.1 + (-1) else f kv.1) + (-1)
        else if kv.1 = A then f kv.1 + (-1) else f kv.1) + amt
      else if kv.1 = A then
        (if kv.1 = A then f kv.1 + (-1) else f kv.1) + (-1)
        else if kv.1 = A then f kv.1 + (-1) else f kv.1)) =
      r.map (fun kv => (kv.1,
        if kv.1 = A then f kv.1 - 2
        else if kv.1 = B then f kv.1 + amt else f kv.1)) := by
    apply List.map_congr_left
    intro kv _
    by_cases h1 : kv.1 = A
    · rw [h1]
      simp only [eq_self_iff_true, if_true, eq_false hAB, if_false,
        Prod.mk.injEq, true_and]
      omega
    · by_cases h2 : kv.1 = B
      · rw [h2]
        simp only [eq_self_iff_true, if_true, eq_false (Ne.symm hAB),
          if_false]
      · simp only [eq_false h1, eq_false h2, if_false]
  rw [hcong]

/-- The complete root visit of an action `A` whose only dependency
reference is `must_have = B` (single-id shape) with `B` present and
dependency-free: `A` loses 2, `B` gains 10, the path is restored and no
diagnostic is emitted. -/
theorem visit_hard_single (n : Nat) {r : Registry} {A B : Ident}
    {actA actB : Action} (f : Ident → Int) (lg : List LogMsg)
    (hnd : (r.map Prod.fst).Nodup)
    (hsoft : actA.only_if = .nil) (hhard : actA.must_have = .one B)
    (hAB : A ≠ B)
    (hlookB : List.lookup B r = some actB)
    (hB1 : actB.only_if = .nil) (hB2 : actB.must_have = .nil)
    (hAmem : A ∈ r.map Prod.fst) (hBmem : B ∈ r.map Prod.fst) :
    visit (n + 2) A actA ⟨r, r.map (fun kv => (kv.1, f kv.1)), [], lg⟩ =
      .ok ⟨r, r.map (fun kv => (kv.1,
        if kv.1 = A then f kv.1 - 2
        else if kv.1 = B then f kv.1 + 10 else f kv.1)), [], lg⟩ := by
  have hp1 : pushPath A ([] : List Ident) = [A] := by simp [pushPath]
  have hp2 : pushPath B [A] = [A, B] := by
    simp [pushPath, Ne.symm hAB]
  have hp3 : pushPath B [A, B] = [A, B] := by simp [pushPath]
  have hcon : ((([A] : List Ident) = []) = False) := by simp
  have hcon2 : ((([A, B] : List Ident) = []) = False) := by simp
  simp only [visit, depBlock, singleDep, hp1, hp2, hp3, List.head?_cons,
    hsoft, hhard, hB1, hB2, hlookB, eq_self_iff_true, if_true,
    edgeOp_mapform f hnd hAmem hBmem hAB, List.dropLast, hcon, hcon2,
    if_false]

/-- The complete root visit of an action `A` with `must_have = [B, m]`
where `B` is present and dependency-free and `m` is absent: the edge to
`B` is processed first (`A` loses 2, `B` gains 10), then the missing `m`
logs a diagnostic naming `A` and the whole list and removes `A`'s entry
from the priority table; the loop continues past the missing entry and
the visit completes normally. -/
theorem visit_hard_list_missing (n : Nat) {r : Registry} {A B m : Ident}
    {actA actB : Action} (f : Ident → Int) (lg : List LogMsg)
    (hnd : (r.map Prod.fst).Nodup)
    (hsoft : actA.only_if = .nil) (hhard : actA.must_have = .many [B, m])
    (hAB : A ≠ B)
    (hlookB : List.lookup B r = some actB)
    (hB1 : actB.only_if = .nil) (hB2 : actB.must_have = .nil)
    (hAmem : A ∈ r.map Prod.fst) (hBmem : B ∈ r.map Prod.fst)
    (hm : m ∉ r.map Prod.fst) :
    visit (n + 2) A actA ⟨r, r.map (fun kv => (kv.1, f kv.1)), [], lg⟩ =
      .ok ⟨r, (r.filter (fun kv => kv.1 != A)).map (fun kv => (kv.1,
          if kv.1 = B then f kv.1 + 10 else f kv.1)), [],
        lg ++ [LogMsg.hardMiss A [B, m]]⟩ := by
  have hp1 : pushPath A ([] : List Ident) = [A] := by simp [pushPath]
  have hp2 : pushPath B [A] = [A, B] := by
    simp [pushPath, Ne.symm hAB]
  have hcon : ((([A] : List Ident) = []) = False) := by simp
  have hcon2 : ((([A, B] : List Ident) = []) = False) := by simp
  have hlookm : List.lookup m r = none := lookup_eq_none hm
  have hcong : (r.filter (fun kv => kv.1 != A)).map (fun kv => (kv.1,
      if kv.1 = A then f kv.1 - 2
      else if kv.1 = B then f kv.1 + 10 else f kv.1)) =
      (r.filter (fun kv => kv.1 != A)).map (fun kv => (kv.1,
        if kv.1 = B then f kv.1 + 10 else f kv.1)) := by
    apply List.map_congr_left
    intro kv hkv
    have hne : kv.1 ≠ A := by
      have := List.of_mem_filter hkv
      simpa using this
    simp [eq_false hne]
  simp only [visit, depBlock, visitListF, hp1, hp2, List.head?_cons,
    hsoft, hhard, hB1, hB2, hlookB, hlookm, eq_self_iff_true, if_true,
    edgeOp_mapform f hnd hAmem hBmem hAB,
    popP_mapform (fun x => if x = A then f x - 2
      else if x = B then f x + 10 else f x) hnd hAmem,
    Bool.cond_true, List.dropLast, hcon, hcon2, if_false]
  rw [hcong]

theorem rootLoop_append {fuel : Nat} {l1 l2 : List (Ident × Action)} :
    ∀ {st : St}, rootLoop fuel (l1 ++ l2) st =
      match rootLoop fuel l1 st with
      | .error e => .error e
      | .ok st' => rootLoop fuel l2 st' := by
  induction l1 with
  | nil => intro st; rfl
  | cons y ys ih =>
    intro st
    obtain ⟨id, act⟩ := y
    simp only [List.cons_append, rootLoop]
    cases hv : visit fuel id act { st with path := [] } with
    | error e => rfl
    | ok st1 => exact ih

/-- Resolution of a registry in which every action except `A` is
dependency-free: the dep-free root visits are no-ops, so the final state
is whatever `A`'s root visit produced. -/
theorem resolveSt_chunk {fuel : Nat} (hf : 1 ≤ fuel) {r : Registry}
    {A : Ident} {actA : Action} {pst : PTable} {plog : List LogMsg}
    (hnd : (r.map Prod.fst).Nodup)
    (hmem : (A, actA) ∈ r)
    (hothers : ∀ kv ∈ r, kv.1 ≠ A →
      kv.2.only_if = Dep.nil ∧ kv.2.must_have = Dep.nil)
    (hvisit : visit fuel A actA ⟨r, initPrio r, [], []⟩ =
      .ok ⟨r, pst, [], plog⟩) :
    resolveSt fuel r = .ok ⟨r, pst, [], plog⟩ := by
  obtain ⟨l1, l2, hr⟩ := List.append_of_mem hmem
  subst hr
  have hkeys : (l1.map Prod.fst ++ A :: l2.map Prod.fst).Nodup := by
    simpa using hnd
  rcases List.nodup_append.mp hkeys with ⟨hn1, hn2, hdisj⟩
  have hAl1 : A ∉ l1.map Prod.fst :=
    fun hA => hdisj hA (List.mem_cons_self _ _)
  have hAl2 : A ∉ l2.map Prod.fst := (List.nodup_cons.mp hn2).1
  have hl1df : ∀ kv ∈ l1, kv.2.only_if = Dep.nil ∧
      kv.2.must_have = Dep.nil := by
    intro kv hkv
    refine hothers kv (List.mem_append.mpr (Or.inl hkv)) ?_
    intro he
    exact hAl1 (he ▸ List.mem_map.mpr ⟨kv, hkv, rfl⟩)
  have hl2df : ∀ kv ∈ l2, kv.2.only_if = Dep.nil ∧
      kv.2.must_have = Dep.nil := by
    intro kv hkv
    refine hothers kv
      (List.mem_append.mpr (Or.inr (List.mem_cons_of_mem _ hkv))) ?_
    intro he
    exact hAl2 (he ▸ List.mem_map.mpr ⟨kv, hkv, rfl⟩)
  unfold resolveSt
  rw [rootLoop_append, rootLoop_depfree hf hl1df rfl]
  simp only [rootLoop]
  rw [hvisit]
  exact rootLoop_depfree hf hl2df rfl

/-- Chunk computation for a hard single-id dependency: in a registry where
`A` has `must_have = B` (single shape), `B` exists, and no other
dependency reference exists anywhere, resolution succeeds with final
priorities `A = -2`, `B = 10`, everything else `0`, and an empty log. -/
theorem resolveSt_hard_single {fuel : Nat} (hf : 2 ≤ fuel) {r : Registry}
    {A B : Ident} {actA : Action}
    (hnd : (r.map Prod.fst).Nodup)
    (hmem : (A, actA) ∈ r)
    (hsoft : actA.only_if = Dep.nil) (hhard : actA.must_have = Dep.one B)
    (hAB : A ≠ B)
    (hBmem : B ∈ r.map Prod.fst)
    (hothers : ∀ kv ∈ r, kv.1 ≠ A →
      kv.2.only_if = Dep.nil ∧ kv.2.must_have = Dep.nil) :
    resolveSt fuel r = .ok ⟨r, r.map (fun kv => (kv.1,
      if kv.1 = A then (-2 : Int) else if kv.1 = B then 10 else 0)),
      [], []⟩ := by
  obtain ⟨k, rfl⟩ : ∃ k, fuel = k + 2 := ⟨fuel - 2, by omega⟩
  have hAmem : A ∈ r.map Prod.fst := List.mem_map.mpr ⟨(A, actA), hmem, rfl⟩
  obtain ⟨actB, hlookB⟩ := lookup_isSome hBmem
  have hBr : (B, actB) ∈ r := lookup_mem hlookB
  have hBdf := hothers (B, actB) hBr (Ne.symm hAB)
  have h0 := visit_hard_single k (fun _ => (0 : Int)) [] hnd hsoft hhard hAB
    hlookB hBdf.1 hBdf.2 hAmem hBmem
  refine resolveSt_chunk (by omega) hnd hmem hothers ?_
  have hip : initPrio r = r.map (fun kv => (kv.1, (fun _ => (0 : Int)) kv.1)) := rfl
  rw [hip]
  rw [h0]
  have hcg : r.map (fun kv => (kv.1,
      if kv.1 = A then (fun _ => (0 : Int)) kv.1 - 2
      else if kv.1 = B then (fun _ => (0 : Int)) kv.1 + 10
      else (fun _ => (0 : Int)) kv.1)) =
      r.map (fun kv => (kv.1,
        if kv.1 = A then (-2 : Int) else if kv.1 = B then 10 else 0)) := by
    apply List.map_congr_left
    intro kv _
    by_cases h1 : kv.1 = A
    · simp [h1]
    · by_cases h2 : kv.1 = B
      · simp [h1, h2]
      · simp [h1, h2]
  rw [hcg]

/-- Chunk computation for a hard list dependency with a trailing missing
entry: in a registry where `A` has `must_have = [B, m]`, `B` exists,
`m` does not, and no other dependency reference exists anywhere,
resolution succeeds; `A` is removed from the priority table, `B` has
priority 10, everything else 0, and the diagnostic names `A` and its
dependency list. -/
theorem resolveSt_hard_list_missing {fuel : Nat} (hf : 2 ≤ fuel)
    {r : Registry} {A B m : Ident} {actA : Action}
    (hnd : (r.map Prod.fst).Nodup)
    (hmem : (A, actA) ∈ r)
    (hsoft : actA.only_if = Dep.nil)
    (hhard : actA.must_have = Dep.many [B, m])
    (hAB : A ≠ B)
    (hBmem : B ∈ r.map Prod.fst)
    (hm : m ∉ r.map Prod.fst)
    (hothers : ∀ kv ∈ r, kv.1 ≠ A →
      kv.2.only_if = Dep.nil ∧ kv.2.must_have = Dep.nil) :
    resolveSt fuel r = .ok ⟨r,
      (r.filter (fun kv => kv.1 != A)).map (fun kv => (kv.1,
        if kv.1 = B then (10 : Int) else 0)),
      [], [LogMsg.hardMiss A [B, m]]⟩ := by
  obtain ⟨k, rfl⟩ : ∃ k, fuel = k + 2 := ⟨fuel - 2, by omega⟩
  have hAmem : A ∈ r.map Prod.fst := List.mem_map.mpr ⟨(A, actA), hmem, rfl⟩
  obtain ⟨actB, hlookB⟩ := lookup_isSome hBmem
  have hBr : (B, actB) ∈ r := lookup_mem hlookB
  have hBdf := hothers (B, actB) hBr (Ne.symm hAB)
  have h0 := visit_hard_list_missing k (fun _ => (0 : Int)) [] hnd hsoft
    hhard hAB hlookB hBdf.1 hBdf.2 hAmem hBmem hm
  refine resolveSt_chunk (by omega) hnd hmem hothers ?_
  have hip : initPrio r = r.map (fun kv => (kv.1, (fun _ => (0 : Int)) kv.1)) := rfl
  rw [hip]
  rw [h0]
  have hcg : (r.filter (fun kv => kv.1 != A)).map (fun kv => (kv.1,
      if kv.1 = B then (fun _ => (0 : Int)) kv.1 + 10
      else (fun _ => (0 : Int)) kv.1)) =
      (r.filter (fun kv => kv.1 != A)).map (fun kv => (kv.1,
        if kv.1 = B then (10 : Int) else 0)) := by
    apply List.map_congr_left
    intro kv _
    by_cases h2 : kv.1 = B
    · simp [h2]
    · simp [h2]
  rw [hcg]
  simp


/-! ### Actions without list-form dependencies are never removed -/

/-- Whether a dependency field has the list shape: only this shape can
trigger `priorities.pop` in `visit_dependency`. -/
def Dep.isMany : Dep → Bool
  | .many _ => true
  | _ => false

theorem lookup_of_mem_nodup {α : Type} {l : List (Ident × α)} {k : Ident}
    {v : α} (hnd : (l.map Prod.fst).Nodup) (hmem : (k, v) ∈ l) :
    List.lookup k l = some v := by
  induction l with
  | nil => cases hmem
  | cons y ys ih =>
    obtain ⟨a, w⟩ := y
    simp only [List.map_cons] at hnd
    rcases List.nodup_cons.mp hnd with ⟨ha, hnd'⟩
    rcases List.mem_cons.mp hmem with hm | hm
    · rw [← hm]
      simp [List.lookup_cons]
    · have hk : k ≠ a := by
        intro hk
        exact ha (hk ▸ List.mem_map.mpr ⟨(k, v), hm, rfl⟩)
      rw [List.lookup_cons]
      have hb : (k == a) = false := by simpa using hk
      rw [hb]
      exact ih hnd' hm

/-- In the list walker, if the visiting action is not `A`, the key `A`
survives: pops only remove the visiting id, and edge updates never remove
keys.  `hrec` packages the same property for the recursive visits. -/
theorem visitListF_keep {A : Ident} {r : Registry} {act : Action}
    (hreg : List.lookup A r = some act)
    (rec : Ident → Action → St → Except PyErr St)
    (hrec : ∀ d det st st', st.acts = r → (d = A → det = act) →
      rec d det st = .ok st' →
      st'.acts = st.acts ∧
        (A ∈ st.prio.map Prod.fst → A ∈ st'.prio.map Prod.fst))
    {hard : Bool} {id origin : Ident} {ds0 : List Ident} (hid : id ≠ A) :
    ∀ {ds : List Ident} {st st' : St},
      visitListF rec hard id origin ds0 ds st = .ok st' → st.acts = r →
      st'.acts = st.acts ∧
        (A ∈ st.prio.map Prod.fst → A ∈ st'.prio.map Prod.fst) := by
  intro ds
  induction ds with
  | nil =>
    intro st st' h hacts
    cases h
    exact ⟨rfl, fun hm => hm⟩
  | cons d rest ih =>
    intro st st' h hacts
    simp only [visitListF] at h
    cases hl : List.lookup d st.acts with
    | some ddet =>
      simp only [hl] at h
      cases he : edgeOp origin id d (if hard then 10 else 1) st with
      | error e => simp only [he] at h; cases h
      | ok st1 =>
        simp only [he] at h
        cases hr : rec d ddet st1 with
        | error e => simp only [hr] at h; cases h
        | ok st2 =>
          simp only [hr] at h
          obtain ⟨he1, _, _, hek⟩ := edgeOp_ok he
          have hdet : d = A → ddet = act := by
            intro hd
            subst hd
            rw [hacts, hreg] at hl
            exact (Option.some.injEq _ _ ▸ hl).symm
          have hst1 : st1.acts = r := he1.trans hacts
          obtain ⟨hr1, hr2⟩ := hrec d ddet st1 st2 hst1 hdet hr
          have hst2 : st2.acts = r := hr1.trans hst1
          obtain ⟨hi1, hi2⟩ := ih h hst2
          refine ⟨by rw [hi1, hr1, he1], ?_⟩
          intro hm
          exact hi2 (hr2 (hek ▸ hm))
    | none =>
      simp only [hl] at h
      cases hp : popP id st.prio with
      | none => simp only [hp] at h; cases h
      | some p =>
        simp only [hp] at h
        cases hard with
        | true =>
          rw [Bool.cond_true] at h
          obtain ⟨hi1, hi2⟩ := ih h hacts
          constructor
          · have := hi1
            exact this
          · intro hm
            have hp2 := popP_mem hp (Ne.symm hid) hm
            exact hi2 hp2
        | false =>
          rw [Bool.cond_false] at h
          cases h
          constructor
          · rfl
          · intro hm
            have hp2 := popP_mem hp (Ne.symm hid) hm
            exact hp2

/-- The single-id branch never removes any priority entry. -/
theorem singleDep_keep {A : Ident} {r : Registry} {act : Action}
    (hreg : List.lookup A r = some act)
    (rec : Ident → Action → St → Except PyErr St)
    (hrec : ∀ d det st st', st.acts = r → (d = A → det = act) →
      rec d det st = .ok st' →
      st'.acts = st.acts ∧
        (A ∈ st.prio.map Prod.fst → A ∈ st'.prio.map Prod.fst))
    {amt : Int} {id origin d : Ident} {st st' : St}
    (h : singleDep rec amt id origin d st = .ok st') (hacts : st.acts = r) :
    st'.acts = st.acts ∧
      (A ∈ st.prio.map Prod.fst → A ∈ st'.prio.map Prod.fst) := by
  simp only [singleDep] at h
  cases hl : List.lookup d st.acts with
  | some ddet =>
    simp only [hl] at h
    cases he : edgeOp origin id d amt { st with path := pushPath d st.path } with
    | error e => simp only [he] at h; cases h
    | ok st1 =>
      simp only [he] at h
      obtain ⟨he1, _, _, hek⟩ := edgeOp_ok he
      have hdet : d = A → ddet = act := by
        intro hd
        subst hd
        rw [hacts, hreg] at hl
        exact (Option.some.injEq _ _ ▸ hl).symm
      have hst1 : st1.acts = r := he1.trans hacts
      obtain ⟨hr1, hr2⟩ := hrec d ddet st1 st' hst1 hdet h
      refine ⟨by rw [hr1, he1], ?_⟩
      intro hm
      exact hr2 (hek ▸ hm)
  | none =>
    simp only [hl] at h
    cases h
    exact ⟨rfl, fun hm => hm⟩

/-- A dependency block of a visiting action keeps `A`'s priority entry,
as long as the block is not a list-form block of `A` itself. -/
theorem depBlock_keep {A : Ident} {r : Registry} {act : Action}
    (hreg : List.lookup A r = some act)
    (rec : Ident → Action → St → Except PyErr St)
    (hrec : ∀ d det st st', st.acts = r → (d = A → det = act) →
      rec d det st = .ok st' →
      st'.acts = st.acts ∧
        (A ∈ st.prio.map Prod.fst → A ∈ st'.prio.map Prod.fst))
    {hard : Bool} {id origin : Ident} {dep : Dep} {st st' : St}
    (h : depBlock rec hard id origin dep st = .ok st')
    (hacts : st.acts = r)
    (hshape : dep.isMany = true → id ≠ A) :
    st'.acts = st.acts ∧
      (A ∈ st.prio.map Prod.fst → A ∈ st'.prio.map Prod.fst) := by
  cases dep with
  | nil =>
    cases h
    exact ⟨rfl, fun hm => hm⟩
  | one d => exact singleDep_keep hreg rec hrec h hacts
  | many ds => exact visitListF_keep hreg rec hrec (hshape rfl) h hacts

/-- If `A`'s own descriptor carries no list-form dependency field, then no
successful visit (of any action) can remove `A` from the priority table. -/
theorem visit_keep {A : Ident} {r : Registry} {act : Action}
    (hreg : List.lookup A r = some act)
    (hs1 : act.only_if.isMany = false) (hs2 : act.must_have.isMany = false) :
    ∀ {fuel : Nat} {id : Ident} {det : Action} {st st' : St},
      visit fuel id det st = .ok st' →
      st.acts = r → (id = A → det = act) →
      st'.acts = st.acts ∧
        (A ∈ st.prio.map Prod.fst → A ∈ st'.prio.map Prod.fst) := by
  intro fuel
  induction fuel with
  | zero => intro id det st st' h hacts hdet; cases h
  | succ n ih =>
    intro id det st st' h hacts hdet
    have hrec : ∀ d det st st', st.acts = r → (d = A → det = act) →
        visit n d det st = .ok st' →
        st'.acts = st.acts ∧
          (A ∈ st.prio.map Prod.fst → A ∈ st'.prio.map Prod.fst) :=
      fun d det st st' ha hd hv => ih hv ha hd
    have hsh1 : det.only_if.isMany = true → id ≠ A := by
      intro hmany hid
      rw [hdet hid] at hmany
      rw [hs1] at hmany
      cases hmany
    have hsh2 : det.must_have.isMany = true → id ≠ A := by
      intro hmany hid
      rw [hdet hid] at hmany
      rw [hs2] at hmany
      cases hmany
    simp only [visit] at h
    cases hh : (pushPath id st.path).head? with
    | none => simp only [hh] at h; cases h
    | some origin =>
      simp only [hh] at h
      cases h1 : depBlock (fun d det st => visit n d det st) false id origin
          det.only_if { st with path := pushPath id st.path } with
      | error e => simp only [h1] at h; cases h
      | ok st2 =>
        simp only [h1] at h
        cases h2 : depBlock (fun d det st => visit n d det st) true id origin
            det.must_have st2 with
        | error e => simp only [h2] at h; cases h
        | ok st3 =>
          simp only [h2] at h
          by_cases hp : st3.path = []
          · rw [if_pos hp] at h; cases h
          · rw [if_neg hp] at h
            cases h
            obtain ⟨hb1, hk1⟩ := depBlock_keep hreg _ hrec h1 hacts hsh1
            have hst2 : st2.acts = r := by
              rw [hb1]; exact hacts
            obtain ⟨hb2, hk2⟩ := depBlock_keep hreg _ hrec h2 hst2 hsh2
            constructor
            · show st3.acts = st.acts
              rw [hb2, hb1]
            · intro hm
              exact hk2 (hk1 hm)

theorem rootLoop_keep {A : Ident} {r : Registry} {act : Action}
    (hreg : List.lookup A r = some act)
    (hs1 : act.only_if.isMany = false) (hs2 : act.must_have.isMany = false)
    (hnd : (r.map Prod.fst).Nodup) {fuel : Nat} :
    ∀ {l : List (Ident × Action)} {st st' : St},
      rootLoop fuel l st = .ok st' → st.acts = r →
      (∀ kv ∈ l, kv ∈ r) →
      A ∈ st.prio.map Prod.fst → A ∈ st'.prio.map Prod.fst := by
  intro l
  induction l with
  | nil =>
    intro st st' h hacts hsub hm
    cases h
    exact hm
  | cons y ys ih =>
    intro st st' h hacts hsub hm
    obtain ⟨id, a⟩ := y
    simp only [rootLoop] at h
    cases hv : visit fuel id a { st with path := [] } with
    | error e => simp only [hv] at h; cases h
    | ok st1 =>
      simp only [hv] at h
      have hdet : id = A → a = act := by
        intro hid
        subst hid
        have := lookup_of_mem_nodup hnd (hsub (id, a) (List.mem_cons_self _ _))
        rw [hreg] at this
        exact (Option.some.injEq _ _ ▸ this).symm
      obtain ⟨hv1, hv2⟩ := visit_keep hreg hs1 hs2 hv hacts hdet
      have hst1 : st1.acts = r := by
        rw [hv1]; exact hacts
      exact ih h hst1 (fun kv hkv => hsub kv (List.mem_cons_of_mem _ hkv))
        (hv2 hm)

/-- If `A`'s descriptor has no list-form dependency reference, a
successful resolution keeps `A` in the priority table. -/
theorem resolveSt_keep {A : Ident} {r : Registry} {act : Action}
    (hreg : List.lookup A r = some act)
    (hs1 : act.only_if.isMany = false) (hs2 : act.must_have.isMany = false)
    (hnd : (r.map Prod.fst).Nodup) {fuel : Nat} {st : St}
    (h : resolveSt fuel r = .ok st) : A ∈ st.prio.map Prod.fst := by
  have hA : A ∈ r.map Prod.fst :=
    List.mem_map.mpr ⟨(A, act), lookup_mem hreg, rfl⟩
  have hinit : A ∈ (initPrio r).map Prod.fst := by
    simp only [initPrio, List.map_map]
    simpa using hA
  exact rootLoop_keep hreg hs1 hs2 hnd h rfl (fun kv hkv => hkv) hinit

/-! ### A dependency cycle makes `visit_dependency` recurse unboundedly -/

/-- The one-action registry whose action soft-depends on itself:
`{A: only_if = A}`. -/
def cycAct : Action := ⟨Dep.one "A", Dep.nil, Op.shell "self"⟩

/-- The registry of the self-cycle example. -/
def cycReg : Registry := [("A", cycAct)]

/-- On the self-cycle, every level of `visit_dependency` re-enters the
visit of `A` even though `A` is already on the dependency path — the
guard only skips the re-push, not the recursive call — so the available
recursion budget is always exhausted, whatever it is. -/
theorem visit_cyc (n : Nat) :
    ∀ (p : PTable) (pth : List Ident) (lg : List LogMsg),
      pushPath "A" pth = ["A"] → "A" ∈ p.map Prod.fst →
      visit n "A" cycAct ⟨cycReg, p, pth, lg⟩ = .error .fuel := by
  induction n with
  | zero => intro p pth lg hpth hA; rfl
  | succ k ih =>
    intro p pth lg hpth hA
    obtain ⟨p1, h1⟩ := bumpP_isSome (-1) hA
    have hA1 : "A" ∈ p1.map Prod.fst := by rw [bumpP_keys h1]; exact hA
    obtain ⟨p2, h2⟩ := bumpP_isSome (-1) hA1
    have hA2 : "A" ∈ p2.map Prod.fst := by rw [bumpP_keys h2]; exact hA1
    obtain ⟨p3, h3⟩ := bumpP_isSome 1 hA2
    have hA3 : "A" ∈ p3.map Prod.fst := by rw [bumpP_keys h3]; exact hA2
    have hpp2 : pushPath "A" ["A"] = ["A"] := by simp [pushPath]
    have hrec := ih p3 ["A"] lg hpp2 hA3
    have hlook : List.lookup "A" cycReg = some cycAct := rfl
    have hamt : (if (false : Bool) then (10 : Int) else 1) = 1 := rfl
    have hso : cycAct.only_if = Dep.one "A" := rfl
    have hmh : cycAct.must_have = Dep.nil := rfl
    simp only [visit, depBlock, singleDep, hpth, hpp2, List.head?_cons,
      hlook, hamt, hso, hmh, edgeOp, h1, h2, h3, hrec]

/-- C2: the claim states that resolution terminates for every registry
because a dependency id already on the DependencyPath is not re-visited.
The code contradicts this: on the self-cycle registry `{A: only_if = A}`
the recursive visit into `A` is performed although `A` is already on the
path, so `get_execution_order` exhausts every recursion budget — the
Python original recurses unboundedly (`RecursionError`).  The spec (§4.2,
§7, §9) itself mandates the strengthened guard and flags the source's
guard as an open defect, so this is a bug of the code, not of the claim. -/
theorem c2_cycle_never_terminates (fuel : Nat) :
    getExecutionOrder fuel cycReg = .error .fuel := by
  cases fuel with
  | zero => rfl
  | succ k =>
    have hv' : visit (k + 1) "A" cycAct
        ⟨[("A", cycAct)], [("A", 0)], [], []⟩ = .error .fuel := by
      have hv := visit_cyc (k + 1) [("A", 0)] [] []
        (by simp [pushPath]) (by simp)
      simpa [cycReg] using hv
    unfold getExecutionOrder resolveSt
    simp only [rootLoop, initPrio, cycReg, List.map_cons, List.map_nil,
      hv', Except.map]

/-! ### Registry build (`parse_actions` / `get_install_functions`)

The four fragment kinds are modelled in their well-formed shapes (a
fragment missing its kind-specific required field is a construction error
per the recipe format and is not modelled).  `gen` stands for the nanoid
generator: `gen c` is the id returned by the `c`-th call of `gen_id()`;
one call is made per loop iteration, matching the source, where
`action_id = gen_id()` runs before the fragment is inspected.  The
string-collection and mapping-collection shapes of
`get_install_functions` only extend the command buffer and recurse; the
token-list shape, the only one that can carry explicit ids, is modelled
here. -/

/-- A fragment of the `create` list: a bare path, or a dict with optional
explicit id, a path, and dependency fields. -/
inductive CreateFrag where
  | bare : String → CreateFrag
  | struct : Option Ident → String → Dep → Dep → CreateFrag
deriving DecidableEq, Repr

/-- A fragment of the `shell` list: a bare script path or a dict. -/
inductive ShellFrag where
  | bare : String → ShellFrag
  | struct : Option Ident → String → Dep → Dep → ShellFrag
deriving DecidableEq, Repr

/-- A fragment of the `links` list: a `symlink: original` pair or a dict
with explicit `target`/`link` keys. -/
inductive LinkFrag where
  | pair : String → String → LinkFrag
  | struct : Option Ident → String → String → Dep → Dep → LinkFrag
deriving DecidableEq, Repr

/-- A token of a `packages` token list: a bare package name or a dict
with `name` and optional id and dependency fields. -/
inductive PkgTok where
  | bare : String → PkgTok
  | struct : Option Ident → Dep → Dep → String → PkgTok
deriving DecidableEq, Repr

/-- Assignment `id_dict[k] = v` on a Python dict: an existing key keeps
its position and gets the new value, a new key is appended at the end. -/
def dictInsert (d : Registry) (k : Ident) (v : Action) : Registry :=
  if (List.lookup k d).isSome then
    d.map (fun kv => if kv.1 = k then (k, v) else kv)
  else d ++ [(k, v)]

/-- The `create` loop of `parse_actions` (lines 433-453): a fragment with
an explicit id already present in the dict is skipped (`continue`). -/
def parseCreate (gen : Nat → Ident) :
    List CreateFrag → Registry → Nat → Registry × Nat
  | [], d, c => (d, c)
  | .bare p :: rest, d, c =>
    parseCreate gen rest
      (dictInsert d (gen c) ⟨Dep.nil, Dep.nil, Op.create p⟩) (c + 1)
  | .struct oid p mh oi :: rest, d, c =>
    match oid with
    | some i =>
      if (List.lookup i d).isSome then parseCreate gen rest d (c + 1)
      else parseCreate gen rest (dictInsert d i ⟨oi, mh, Op.create p⟩) (c + 1)
    | none =>
      parseCreate gen rest (dictInsert d (gen c) ⟨oi, mh, Op.create p⟩) (c + 1)

/-- The `shell` loop of `parse_actions` (lines 455-474), same dedup rule. -/
def parseShell (gen : Nat → Ident) :
    List ShellFrag → Registry → Nat → Registry × Nat
  | [], d, c => (d, c)
  | .bare s :: rest, d, c =>
    parseShell gen rest
      (dictInsert d (gen c) ⟨Dep.nil, Dep.nil, Op.shell s⟩) (c + 1)
  | .struct oid s mh oi :: rest, d, c =>
    match oid with
    | some i =>
      if (List.lookup i d).isSome then parseShell gen rest d (c + 1)
      else parseShell gen rest (dictInsert d i ⟨oi, mh, Op.shell s⟩) (c + 1)
    | none =>
      parseShell gen rest (dictInsert d (gen c) ⟨oi, mh, Op.shell s⟩) (c + 1)

/-- The `links` loop of `parse_actions` (lines 476-499), same dedup rule. -/
def parseLinks (gen : Nat → Ident) :
    List LinkFrag → Registry → Nat → Registry × Nat
  | [], d, c => (d, c)
  | .pair t l :: rest, d, c =>
    parseLinks gen rest
      (dictInsert d (gen c) ⟨Dep.nil, Dep.nil, Op.link t l⟩) (c + 1)
  | .struct oid t l mh oi :: rest, d, c =>
    match oid with
    | some i =>
      if (List.lookup i d).isSome then parseLinks gen rest d (c + 1)
      else parseLinks gen rest (dictInsert d i ⟨oi, mh, Op.link t l⟩) (c + 1)
    | none =>
      parseLinks gen rest (dictInsert d (gen c) ⟨oi, mh, Op.link t l⟩) (c + 1)

/-- The token loop of `get_install_functions` (lines 397-427) over a
token list, with the running command `buffer`; the rendered command is
`f'{buffer} {final_token}'`.  Same dedup rule for explicit ids. -/
def parsePkgs (gen : Nat → Ident) (buffer : String) :
    List PkgTok → Registry → Nat → Registry × Nat
  | [], d, c => (d, c)
  | .bare s :: rest, d, c =>
    parsePkgs gen buffer rest
      (dictInsert d (gen c) ⟨Dep.nil, Dep.nil, Op.pkg (buffer ++ " " ++ s)⟩)
      (c + 1)
  | .struct oid mh oi nm :: rest, d, c =>
    match oid with
    | some i =>
      if (List.lookup i d).isSome then parsePkgs gen buffer rest d (c + 1)
      else parsePkgs gen buffer rest
        (dictInsert d i ⟨oi, mh, Op.pkg (buffer ++ " " ++ nm)⟩) (c + 1)
    | none =>
      parsePkgs gen buffer rest
        (dictInsert d (gen c) ⟨oi, mh, Op.pkg (buffer ++ " " ++ nm)⟩) (c + 1)

/-- One provisioning section, with the four optional fragment kinds. -/
structure SectionCfg where
  create : Option (List CreateFrag)
  shell : Option (List ShellFrag)
  links : Option (List LinkFrag)
  packages : Option (List PkgTok)
deriving Repr

/-- `parse_actions` (lines 430-504): the four kinds processed in source
order into one shared dict; `packages` is handed to
`get_install_functions` with the empty buffer. -/
def parseActions (gen : Nat → Ident) (sec : SectionCfg) : Registry :=
  let s1 : Registry × Nat :=
    match sec.create with
    | none => ([], 0)
    | some l => parseCreate gen l [] 0
  let s2 : Registry × Nat :=
    match sec.shell with
    | none => s1
    | some l => parseShell gen l s1.1 s1.2
  let s3 : Registry × Nat :=
    match sec.links with
    | none => s2
    | some l => parseLinks gen l s2.1 s2.2
  let s4 : Registry × Nat :=
    match sec.packages with
    | none => s3
    | some l => parsePkgs gen "" l s3.1 s3.2
  s4.1

/-! ### Claim theorems -/

/-- A dependency-free action descriptor. -/
def dfAct (s : String) : Action := ⟨Dep.nil, Dep.nil, Op.shell s⟩

/-- Registry refuting C1: `A` hard-depends on `B` (single shape, `B`
present), but `B` soft-depends on seven other actions, which drags `B`'s
priority (10 - 3·7 = -11) below `A`'s (-2 - 7 = -9). -/
def c1Reg : Registry :=
  [("A", ⟨Dep.nil, Dep.one "B", Op.shell "a"⟩),
   ("B", ⟨Dep.many ["X1", "X2", "X3", "X4", "X5", "X6", "X7"], Dep.nil,
     Op.shell "b"⟩),
   ("X1", dfAct "x1"), ("X2", dfAct "x2"), ("X3", dfAct "x3"),
   ("X4", dfAct "x4"), ("X5", dfAct "x5"), ("X6", dfAct "x6"),
   ("X7", dfAct "x7")]

/-- C1 (counterexample): in `c1Reg`, `A.hardDependsOn` is the single id
`B` and `B` exists, yet the final sequence places `A` (position 7)
strictly before `B` (position 8) — the claim's universally quantified
ordering guarantee fails. -/
theorem c1_counterexample :
    getExecutionOrder 10 c1Reg =
      .ok ["X1", "X2", "X3", "X4", "X5", "X6", "X7", "A", "B"] ∧
    List.indexOf ("A" : Ident)
      ["X1", "X2", "X3", "X4", "X5", "X6", "X7", "A", "B"] = 7 ∧
    List.indexOf ("B" : Ident)
      ["X1", "X2", "X3", "X4", "X5", "X6", "X7", "A", "B"] = 8 :=
  ⟨rfl, rfl, rfl⟩

/-- C1 (amended): if `A`'s `hardDependsOn` is the single id `B`, `B`
exists, and neither `B` nor any other action carries any dependency
reference (so no other edge can outweigh the hard edge), then `B`
appears strictly before `A` in the final sequence. -/
theorem c1_hard_single_before (fuel : Nat) (r : Registry) (A B : Ident)
    (actA : Action)
    (hf : 2 ≤ fuel)
    (hnd : (r.map Prod.fst).Nodup)
    (hmem : (A, actA) ∈ r)
    (hsoft : actA.only_if = Dep.nil) (hhard : actA.must_have = Dep.one B)
    (hAB : A ≠ B)
    (hBmem : B ∈ r.map Prod.fst)
    (hothers : ∀ kv ∈ r, kv.1 ≠ A →
      kv.2.only_if = Dep.nil ∧ kv.2.must_have = Dep.nil) :
    ∃ ord, getExecutionOrder fuel r = .ok ord ∧
      List.Sublist [B, A] ord := by
  have hres := resolveSt_hard_single hf hnd hmem hsoft hhard hAB hBmem hothers
  refine ⟨(sortDesc (r.map (fun kv => (kv.1,
    if kv.1 = A then (-2 : Int) else if kv.1 = B then 10 else 0)))).map
      Prod.fst, ?_, ?_⟩
  · unfold getExecutionOrder
    rw [hres]
    rfl
  · have hsorted := sortDesc_pairwise (r.map (fun kv => (kv.1,
      if kv.1 = A then (-2 : Int) else if kv.1 = B then 10 else 0)))
    have hperm := sortDesc_perm (r.map (fun kv => (kv.1,
      if kv.1 = A then (-2 : Int) else if kv.1 = B then 10 else 0)))
    obtain ⟨kvB, hkvB, hfstB⟩ := List.mem_map.mp hBmem
    have hBmem' : (B, (10 : Int)) ∈ sortDesc (r.map (fun kv => (kv.1,
        if kv.1 = A then (-2 : Int) else if kv.1 = B then 10 else 0))) := by
      apply hperm.mem_iff.mpr
      refine List.mem_map.mpr ⟨kvB, hkvB, ?_⟩
      rw [hfstB]
      simp [eq_false (Ne.symm hAB)]
    have hAmem' : (A, (-2 : Int)) ∈ sortDesc (r.map (fun kv => (kv.1,
        if kv.1 = A then (-2 : Int) else if kv.1 = B then 10 else 0))) := by
      apply hperm.mem_iff.mpr
      exact List.mem_map.mpr ⟨(A, actA), hmem, by simp⟩
    exact sorted_before hsorted hBmem' hAmem' (by omega)

/-- Registry for the C1 witness: only dependency reference is `A`'s hard
single-id dependency on `B`. -/
def c1WReg : Registry :=
  [("B", dfAct "b"), ("C", dfAct "c"),
   ("A", ⟨Dep.nil, Dep.one "B", Op.shell "a"⟩)]

/-- Witness for C1 (amended) at a concrete registry and fuel. -/
theorem c1_witness :
    ∃ ord, getExecutionOrder 2 c1WReg = .ok ord ∧
      List.Sublist ["B", "A"] ord :=
  c1_hard_single_before 2 c1WReg "A" "B" ⟨Dep.nil, Dep.one "B", Op.shell "a"⟩
    (by decide) (by decide) (by decide) rfl rfl (by decide) (by decide)
    (by decide)

/-- Registry refuting C3: the missing entry comes first in the hard list. -/
def c3Reg : Registry :=
  [("A", ⟨Dep.nil, Dep.many ["m", "B"], Op.shell "a"⟩), ("B", dfAct "b")]

/-- C3 (counterexample): with `hardDependsOn = [missing, B]` the first
(missing) entry removes `A` from the priority table, and processing the
remaining present entry `B` then crashes the whole run with a `KeyError`
(`priorities[original_id] -= 1` on the removed key): the remaining
entries are not processed, `B` receives no +10, and resolution does not
complete for the sibling `B`. -/
theorem c3_counterexample :
    getExecutionOrder 10 c3Reg = .error .keyError := rfl

/-- C3 (amended): when the absent id comes after the present entries —
`hardDependsOn = [B, missing]` — and no other action carries dependency
references, the claim's behaviour holds: `A` is dropped from the
priority table and the final sequence, `B` still receives its +10, a
diagnostic naming `A` and its dependency list (which contains the
missing id) is logged, and every sibling action completes and appears in
the final sequence. -/
theorem c3_hard_list_missing (fuel : Nat) (r : Registry) (A B m : Ident)
    (actA : Action)
    (hf : 2 ≤ fuel)
    (hnd : (r.map Prod.fst).Nodup)
    (hmem : (A, actA) ∈ r)
    (hsoft : actA.only_if = Dep.nil)
    (hhard : actA.must_have = Dep.many [B, m])
    (hAB : A ≠ B)
    (hBmem : B ∈ r.map Prod.fst)
    (hm : m ∉ r.map Prod.fst)
    (hothers : ∀ kv ∈ r, kv.1 ≠ A →
      kv.2.only_if = Dep.nil ∧ kv.2.must_have = Dep.nil) :
    ∃ st, resolveSt fuel r = .ok st ∧
      List.lookup A st.prio = none ∧
      List.lookup B st.prio = some 10 ∧
      LogMsg.hardMiss A [B, m] ∈ st.log ∧
      getExecutionOrder fuel r = .ok ((sortDesc st.prio).map Prod.fst) ∧
      A ∉ (sortDesc st.prio).map Prod.fst ∧
      ∀ kv ∈ r, kv.1 ≠ A → kv.1 ∈ (sortDesc st.prio).map Prod.fst := by
  have hres := resolveSt_hard_list_missing hf hnd hmem hsoft hhard hAB
    hBmem hm hothers
  obtain ⟨actB, hlookB⟩ := lookup_isSome hBmem
  have hBr : (B, actB) ∈ r := lookup_mem hlookB
  refine ⟨_, hres, ?_, ?_, ?_, ?_, ?_, ?_⟩
  · apply lookup_eq_none
    intro hA
    obtain ⟨kv, hkv, hfst⟩ := List.mem_map.mp hA
    obtain ⟨kv2, hkv2, hfst2⟩ := List.mem_map.mp hkv
    have hf2 := List.of_mem_filter hkv2
    rw [← hfst2] at hfst
    simp only at hfst
    rw [hfst] at hf2
    simp at hf2
  · have hBfil : (B, actB) ∈ r.filter (fun kv => kv.1 != A) := by
      apply List.mem_filter.mpr
      refine ⟨hBr, ?_⟩
      simp [Ne.symm hAB]
    have hBk : B ∈ (r.filter (fun kv => kv.1 != A)).map Prod.fst :=
      List.mem_map.mpr ⟨(B, actB), hBfil, rfl⟩
    rw [lookup_mapform (fun x => if x = B then (10 : Int) else 0) hBk]
    simp
  · simp
  · unfold getExecutionOrder
    rw [hres]
    rfl
  · intro hA
    have hperm := (sortDesc_perm ((r.filter (fun kv => kv.1 != A)).map
      (fun kv => (kv.1, if kv.1 = B then (10 : Int) else 0)))).map Prod.fst
    have hA2 := hperm.mem_iff.mp hA
    obtain ⟨kv, hkv, hfst⟩ := List.mem_map.mp hA2
    obtain ⟨kv2, hkv2, hfst2⟩ := List.mem_map.mp hkv
    have hf2 := List.of_mem_filter hkv2
    rw [← hfst2] at hfst
    simp only at hfst
    rw [hfst] at hf2
    simp at hf2
  · intro kv hkv hne
    have hperm := (sortDesc_perm ((r.filter (fun kv => kv.1 != A)).map
      (fun kv => (kv.1, if kv.1 = B then (10 : Int) else 0)))).map Prod.fst
    apply hperm.mem_iff.mpr
    have hfil : kv ∈ r.filter (fun kv => kv.1 != A) := by
      apply List.mem_filter.mpr
      refine ⟨hkv, ?_⟩
      simpa using hne
    refine List.mem_map.mpr ⟨(kv.1, if kv.1 = B then (10 : Int) else 0),
      List.mem_map.mpr ⟨kv, hfil, rfl⟩, rfl⟩

/-- Registry for the C3 witness: present entry first, missing second. -/
def c3WReg : Registry :=
  [("A", ⟨Dep.nil, Dep.many ["B", "nope"], Op.shell "a"⟩),
   ("B", dfAct "b"), ("C", dfAct "c")]

/-- Witness for C3 (amended) at a concrete registry and fuel. -/
theorem c3_witness :
    ∃ st, resolveSt 2 c3WReg = .ok st ∧
      List.lookup "A" st.prio = none ∧
      List.lookup "B" st.prio = some 10 ∧
      LogMsg.hardMiss "A" ["B", "nope"] ∈ st.log ∧
      getExecutionOrder 2 c3WReg = .ok ((sortDesc st.prio).map Prod.fst) ∧
      "A" ∉ (sortDesc st.prio).map Prod.fst ∧
      ∀ kv ∈ c3WReg, kv.1 ≠ "A" →
        kv.1 ∈ (sortDesc st.prio).map Prod.fst :=
  c3_hard_list_missing 2 c3WReg "A" "B" "nope"
    ⟨Dep.nil, Dep.many ["B", "nope"], Op.shell "a"⟩
    (by decide) (by decide) (by decide) rfl rfl (by decide) (by decide)
    (by decide) (by decide)

/-- Registry refuting C4: `A` hard-depends on `B` (single shape). -/
def c4Reg : Registry :=
  [("A", ⟨Dep.nil, Dep.one "B", Op.shell "a"⟩), ("B", dfAct "b")]

/-- C4 (counterexample): processing `A`'s hard edge to `B` leaves
`A = -2` and `B = 10`.  Under the claim all three deltas would have
magnitude 10, which would leave `A = -20`; the two decrements actually
have magnitude 1 (source lines 563-564 and 577-578), only the increment
is 10. -/
theorem c4_counterexample :
    resolvePrio 5 c4Reg = .ok [("A", -2), ("B", 10)] ∧
      ((-2 : Int) ≠ -20) :=
  ⟨rfl, by decide⟩

/-- Three-action chain exercising both the direct and the recursive hard
cases: `C` hard-depends on `A`, `A` hard-depends on `B`. -/
def c4Chain : Registry :=
  [("C", ⟨Dep.nil, Dep.one "A", Op.shell "c"⟩),
   ("A", ⟨Dep.nil, Dep.one "B", Op.shell "a"⟩),
   ("B", dfAct "b")]

/-- C4 (amended): for a successfully processed hard edge, the increment
of the dependency's priority is +10, while the decrements of the
original root and of the visiting action have magnitude 1, in both the
direct and the recursive case.  On the chain `C → A → B`:
`C = -3` (three −1 decrements as root/visitor), `A = +10 −1 −1 −1 = 7`
(one +10 increment, three −1 decrements), `B = +10 +10 = 20` (two +10
increments, no decrement). -/
theorem c4_hard_deltas (fuel : Nat) (hf : 3 ≤ fuel) :
    resolvePrio fuel c4Chain = .ok [("C", -3), ("A", 7), ("B", 20)] := by
  obtain ⟨k, rfl⟩ : ∃ k, fuel = k + 3 := ⟨fuel - 3, by omega⟩
  rfl

/-- Witness for C4 (amended) at the minimal sufficient fuel. -/
theorem c4_witness :
    resolvePrio 3 c4Chain = .ok [("C", -3), ("A", 7), ("B", 20)] :=
  c4_hard_deltas 3 (by decide)

/-- C5: a registry without any dependency references resolves to the
all-zero priority table, and the final sequence is exactly the
registry's insertion order (the descending sort is stable, so the
all-equal priorities keep their original order). -/
theorem c5_no_deps_insertion_order (fuel : Nat) (r : Registry)
    (hf : 1 ≤ fuel)
    (hdf : ∀ kv ∈ r, kv.2.only_if = Dep.nil ∧ kv.2.must_have = Dep.nil) :
    resolveSt fuel r = .ok ⟨r, initPrio r, [], []⟩ ∧
      getExecutionOrder fuel r = .ok (r.map Prod.fst) := by
  have h1 : resolveSt fuel r = .ok ⟨r, initPrio r, [], []⟩ := by
    unfold resolveSt
    exact rootLoop_depfree hf hdf rfl
  refine ⟨h1, ?_⟩
  unfold getExecutionOrder
  rw [h1]
  have hzero : ∀ x ∈ initPrio r, x.2 = (0 : Int) := by
    intro x hx
    obtain ⟨kv, _, hkv⟩ := List.mem_map.mp hx
    rw [← hkv]
  have hsd : sortDesc (initPrio r) = initPrio r := sortDesc_of_const hzero
  show Except.ok ((sortDesc (initPrio r)).map Prod.fst) = _
  rw [hsd]
  unfold initPrio
  rw [List.map_map]
  rfl

/-- Registry for the C5 witness. -/
def c5Reg : Registry := [("y", dfAct "1"), ("x", dfAct "2"), ("z", dfAct "3")]

/-- Witness for C5 at a concrete dependency-free registry. -/
theorem c5_witness :
    resolveSt 1 c5Reg = .ok ⟨c5Reg, initPrio c5Reg, [], []⟩ ∧
      getExecutionOrder 1 c5Reg = .ok (c5Reg.map Prod.fst) :=
  c5_no_deps_insertion_order 1 c5Reg (by decide) (by decide)

/-- Registry refuting C6: `A`'s soft dependency is the absent single id
`m`, but `A` also has a hard list dependency with an absent entry. -/
def c6Reg : Registry :=
  [("A", ⟨Dep.one "m", Dep.many ["m2"], Op.shell "a"⟩)]

/-- C6 (counterexample): `A`'s soft dependency is given in the single-id
shape and names an absent id, which by the claim should mean `A` is
never removed; but `A`'s other (hard, list-shape) reference removes `A`,
so the final sequence is empty — the claim's universal statement fails
for actions that also carry a list-form reference. -/
theorem c6_counterexample : getExecutionOrder 10 c6Reg = .ok [] := rfl

/-- C6 (amended): an absent dependency in the single-id shape never
causes removal: if both of `A`'s dependency fields are non-list (absent
or single-id) — in particular when one of them names an absent id — then
`A` survives resolution and appears in the final sequence whenever
resolution completes.  (Removal can still reach `A` only through a
list-form reference of `A` itself, as the counterexample shows.) -/
theorem c6_single_shape_no_removal (fuel : Nat) (r : Registry) (A : Ident)
    (act : Action) (d : Ident) (ord : List Ident)
    (hnd : (r.map Prod.fst).Nodup)
    (hreg : List.lookup A r = some act)
    (hs1 : act.only_if.isMany = false) (hs2 : act.must_have.isMany = false)
    (habs : (act.only_if = Dep.one d ∧ List.lookup d r = none) ∨
      (act.must_have = Dep.one d ∧ List.lookup d r = none))
    (h : getExecutionOrder fuel r = .ok ord) : A ∈ ord := by
  unfold getExecutionOrder at h
  cases hres : resolveSt fuel r with
  | error e => rw [hres] at h; cases h
  | ok st =>
    rw [hres] at h
    have hA := resolveSt_keep hreg hs1 hs2 hnd hres
    have hord : ord = (sortDesc st.prio).map Prod.fst := by
      have h2 : Except.ok ((sortDesc st.prio).map Prod.fst) =
          (Except.ok ord : Except PyErr (List Ident)) := h
      injection h2 with h3
      exact h3.symm
    rw [hord]
    exact ((sortDesc_perm st.prio).map Prod.fst).mem_iff.mpr hA

/-- Registry for the C6 witness: `A` soft-depends (single shape) on the
absent id `m` and has no other reference. -/
def c6WReg : Registry := [("A", ⟨Dep.one "m", Dep.nil, Op.shell "a"⟩)]

/-- Witness for C6 (amended) at a concrete registry and fuel. -/
theorem c6_witness : ("A" : Ident) ∈ (["A"] : List Ident) :=
  c6_single_shape_no_removal 1 c6WReg "A"
    ⟨Dep.one "m", Dep.nil, Op.shell "a"⟩ "m" ["A"]
    (by decide) rfl rfl rfl (Or.inl ⟨rfl, rfl⟩) rfl

/-- Action and registry refuting C7: a single-shape soft dependency on
the absent id `m`. -/
def c7BadAct : Action := ⟨Dep.one "m", Dep.nil, Op.shell "a"⟩

/-- One-action registry for the C7 counterexample. -/
def c7BadReg : Registry := [("A", c7BadAct)]

/-- C7 (counterexample): the visit enters with an empty path and returns
with path `["A"]`: the absent single-shape dependency id `m` was pushed
during the visit, and the single final `pop()` removed `m` instead of
the visited id `A`, so the path is not restored to its entry contents —
precisely the case the claim says is covered. -/
theorem c7_counterexample :
    visit 10 "A" c7BadAct ⟨c7BadReg, [("A", 0)], [], []⟩ =
      .ok ⟨c7BadReg, [("A", 0)], ["A"], []⟩ := rfl

/-- Action for the C7 amended family: both single-shape dependencies
exist in the registry. -/
def c7Act : Action := ⟨Dep.one "B", Dep.one "C", Op.shell "a"⟩

/-- Registry for the C7 amended family. -/
def c7Reg : Registry := [("A", c7Act), ("B", dfAct "b"), ("C", dfAct "c")]

/-- C7 (amended): each call pops exactly one element before returning,
so the path is restored exactly when everything pushed during the visit
was popped by the nested visits — in particular for a root visit whose
single-shape dependencies all exist (here a soft one on `B` and a hard
one on `C`, both present and dependency-free): the path returns to `[]`.
When an absent single-shape id is pushed it stays, and the final pop
removes it instead of the visited id (see the counterexample). -/
theorem c7_path_restored (n : Nat) :
    visit (n + 2) "A" c7Act ⟨c7Reg, [("A", 0), ("B", 0), ("C", 0)], [], []⟩ =
      .ok ⟨c7Reg, [("A", -4), ("B", 1), ("C", 10)], [], []⟩ := rfl

/-- C8: resolving a registry, then resolving again the registry object
returned by the first resolution (the embedding threads the `actions`
dict through every statement of `visit_dependency`, so a mutation of it
would surface here), produces the identical state: identical priority
table and identical final order.  Together with `c10`-style frame
reasoning this shows the resolve-then-order pipeline is a function of
the registry alone. -/
theorem c8_resolve_deterministic (fuel : Nat) (r : Registry) (st : St)
    (h : resolveSt fuel r = .ok st) :
    resolveSt fuel st.acts = .ok st ∧
      getExecutionOrder fuel st.acts = getExecutionOrder fuel r ∧
      getExecutionOrder fuel r = .ok ((sortDesc st.prio).map Prod.fst) := by
  have ha : st.acts = r := resolveSt_acts h
  rw [ha]
  refine ⟨h, rfl, ?_⟩
  unfold getExecutionOrder
  rw [h]
  rfl

/-- Registry for the C8 witness. -/
def c8Reg : Registry :=
  [("A", ⟨Dep.nil, Dep.one "B", Op.shell "a"⟩), ("B", dfAct "b")]

/-- Final state of the C8 witness registry. -/
def c8St : St := ⟨c8Reg, [("A", -2), ("B", 10)], [], []⟩

/-- Witness for C8 at a concrete registry and fuel. -/
theorem c8_witness :
    resolveSt 3 c8St.acts = .ok c8St ∧
      getExecutionOrder 3 c8St.acts = getExecutionOrder 3 c8Reg ∧
      getExecutionOrder 3 c8Reg = .ok ((sortDesc c8St.prio).map Prod.fst) :=
  c8_resolve_deterministic 3 c8Reg c8St rfl

/-- C9: within each of the four fragment kinds, a fragment declaring an
explicit id already present in the registry is skipped, so of two
fragments with the same explicit id only the first is materialized.
All payloads, dependency fields and the id generator are arbitrary; the
resulting registry holds exactly the first fragment of each pair. -/
theorem c9_dedup_first_wins (gen : Nat → Ident)
    (p1 p2 s1 s2 t1 l1 t2 l2 n1 n2 : String)
    (m1 o1 m2 o2 m3 o3 m4 o4 m5 o5 m6 o6 m7 o7 m8 o8 : Dep) :
    parseActions gen
      ⟨some [CreateFrag.struct (some "a") p1 m1 o1,
             CreateFrag.struct (some "a") p2 m2 o2],
       some [ShellFrag.struct (some "b") s1 m3 o3,
             ShellFrag.struct (some "b") s2 m4 o4],
       some [LinkFrag.struct (some "c") t1 l1 m5 o5,
             LinkFrag.struct (some "c") t2 l2 m6 o6],
       some [PkgTok.struct (some "d") m7 o7 n1,
             PkgTok.struct (some "d") m8 o8 n2]⟩ =
    [("a", ⟨o1, m1, Op.create p1⟩), ("b", ⟨o3, m3, Op.shell s1⟩),
     ("c", ⟨o5, m5, Op.link t1 l1⟩), ("d", ⟨o7, m7, Op.pkg ("" ++ " " ++ n1)⟩)] :=
  rfl

/-- C10: neither resolution nor ordering modifies the registry passed to
them: the registry component of the final state — threaded through every
statement of the embedded `visit_dependency` — is exactly the input
registry, keys and descriptor contents alike; only the freshly created
priority table and the ephemeral dependency path (and the log) change. -/
theorem c10_registry_unchanged (fuel : Nat) (r : Registry) (st : St)
    (h : resolveSt fuel r = .ok st) : st.acts = r :=
  resolveSt_acts h

/-- Registry for the C10 witness. -/
def c10Reg : Registry :=
  [("p", ⟨Dep.one "q", Dep.nil, Op.create "f"⟩), ("q", dfAct "q")]

/-- Witness for C10 at a concrete registry and fuel. -/
theorem c10_witness :
    (St.mk c10Reg [("p", -2), ("q", 1)] [] []).acts = c10Reg :=
  c10_registry_unchanged 2 c10Reg (St.mk c10Reg [("p", -2), ("q", 1)] [] [])
    rfl

end Dotfile
